import Mathlib

/-!
# rag-go: chunking, context assembly and the session commands

A shallow embedding of `main.go`.  A Go `string` is a Lean `String` (a valid
UTF-8 text), `len(s)` is its UTF-8 byte size, a Go slice is a `List`, and Go's
`int` is `Int` (no text in memory has the `2^62` words an overflow of
`i + size` would take).  A finite `float64` is a dyadic number, with the
operations of line 100 rounded to nearest, ties to even.  The collaborators
(vector store, generation service) enter the commands as the operations the
command calls.
-/

set_option autoImplicit false

namespace RagGo

/-! ## Standard-library string functions used by `main.go` -/

/-- Go `unicode.IsSpace`: in Latin-1 the characters tab, newline, vertical tab,
form feed, carriage return, space, U+0085 and U+00A0; above Latin-1 the code
points with the Unicode White_Space property. -/
def isSpace (c : Char) : Bool :=
  let r := c.toNat
  if r ≤ 0xFF then
    r == 0x09 || r == 0x0A || r == 0x0B || r == 0x0C || r == 0x0D || r == 0x20 ||
      r == 0x85 || r == 0xA0
  else
    r == 0x1680 || (0x2000 ≤ r && r ≤ 0x200A) || r == 0x2028 || r == 0x2029 ||
      r == 0x202F || r == 0x205F || r == 0x3000

/-- The scan of Go `strings.Fields`: `cur` holds, reversed, the characters of
the field being read; a space closes a non-empty field. -/
def fieldsFrom : List Char → List Char → List String
  | [], cur => if cur = [] then [] else [String.mk cur.reverse]
  | c :: cs, cur =>
    if isSpace c then
      if cur = [] then fieldsFrom cs [] else String.mk cur.reverse :: fieldsFrom cs []
    else fieldsFrom cs (c :: cur)

/-- Go `strings.Fields(s)`: the maximal runs of non-space characters of `s`. -/
def fields (s : String) : List String := fieldsFrom s.data []

/-- Go `strings.Join(elems, sep)`. -/
def join : List String → String → String
  | [], _ => ""
  | [a], _ => a
  | a :: b :: rest, sep => a ++ sep ++ join (b :: rest) sep

/-- Go `strings.TrimSpace(s)`: `s` without its leading and trailing spaces. -/
def trimSpace (s : String) : String :=
  String.mk ((s.data.dropWhile isSpace).reverse.dropWhile isSpace).reverse

/-- Go `len(s)` of a string: the number of bytes. -/
def len (s : String) : Nat := s.utf8ByteSize

/-- Go slice expression `words[i:e]` for `0 ≤ i ≤ e ≤ len(words)`. -/
def slice (words : List String) (i e : Nat) : List String := (words.drop i).take (e - i)

/-! ## `chunkText` (main.go, lines 98-116) -/

/-- Lines 100-103.  `prod` is the value of `int(float64(size) * (1 - overlap))`,
the binary64 product truncated to an integer; the guard replaces a
non-positive stride by `size`. -/
def stepOf (size prod : Int) : Int := if prod ≤ 0 then size else prod

/-! ### Binary64 arithmetic of line 100

The type `float64` holds the finite numbers `m * 2^e` with `|m| < 2^53` and
`-1074 ≤ e ≤ 971` (and infinities and NaN, which are not modelled).  An
arithmetic operation returns the exact result rounded to the nearest such
number, ties going to the even mantissa. -/

/-- A dyadic number `m * 2^e`, the form of a finite binary64 value. -/
structure F64 where
  m : Int
  e : Int
  deriving DecidableEq, Repr

/-- The rational number `m * 2^e` that a value stands for. -/
def F64.toRat (x : F64) : ℚ := (x.m : ℚ) * (2 : ℚ) ^ x.e

/-- Number of binary digits of `n` (with fuel at least `n`). -/
def bitLen : Nat → Nat → Nat
  | 0, _ => 0
  | fuel + 1, n => if n = 0 then 0 else bitLen fuel (n / 2) + 1

/-- Number of binary digits of `a`. -/
def bits (a : Nat) : Nat := bitLen a a

/-- Rounding of `a * 2^e` to binary64: the `d` low digits beyond a mantissa of
53 digits, or below the least exponent `-1074`, are dropped, and the mantissa
goes up when the dropped part is more than half a unit, or exactly half with
an odd mantissa.  A result of `2^1024` or more stands for an infinity. -/
def roundNat (a : Nat) (e : Int) : Nat × Int :=
  let d : Nat := max (bits a - 53) (-1074 - e).toNat
  let q := a / 2 ^ d
  let r := a % 2 ^ d
  if 2 * r > 2 ^ d ∨ (2 * r = 2 ^ d ∧ q % 2 = 1) then (q + 1, e + d) else (q, e + d)

/-- Rounding of the exact number `m * 2^e` to binary64 (the sign is kept). -/
def F64.round (m e : Int) : F64 :=
  let qe := roundNat m.natAbs e
  ⟨if m < 0 then -(qe.1 : Int) else (qe.1 : Int), qe.2⟩

/-- The conversion `float64(n)` of an integer. -/
def F64.ofInt (n : Int) : F64 := F64.round n 0

/-- The difference `1 - x` in binary64. -/
def F64.oneMinus (x : F64) : F64 :=
  if x.e ≤ 0 then F64.round (2 ^ (-x.e).toNat - x.m) x.e
  else F64.round (1 - x.m * 2 ^ x.e.toNat) 0

/-- The product `x * y` in binary64. -/
def F64.mul (x y : F64) : F64 := F64.round (x.m * y.m) (x.e + y.e)

/-- The integer part of `x`, truncated toward zero. -/
def F64.trunc (x : F64) : Int :=
  if 0 ≤ x.e then x.m * 2 ^ x.e.toNat else Int.tdiv x.m (2 ^ (-x.e).toNat)

/-- Line 100: `int(float64(size) * (1 - overlap))` for a 64-bit `int`.  `none`
is a product outside the range of `int`, whose conversion Go leaves to the
implementation. -/
def f64Prod (size : Int) (overlap : F64) : Option Int :=
  let t := F64.trunc (F64.mul (F64.ofInt size) (F64.oneMinus overlap))
  if -2 ^ 63 ≤ t ∧ t < 2 ^ 63 then some t else none

/-- The `for` loop of lines 105-114, from index `i` with the fragments `chunks`
collected so far.  `none` is a run that returns nothing: the slice expression
`words[i:end]` panics (`i < 0` or `end < i`), or the fuel is used up. -/
def chunkLoop (words : List String) (size step : Int) :
    Nat → Int → List String → Option (List String)
  | 0, _, _ => none
  | fuel + 1, i, chunks =>
    if i < (words.length : Int) then
      let e : Int := if i + size > (words.length : Int) then (words.length : Int) else i + size
      if i < 0 ∨ e < i then none
      else
        let chunks := chunks ++ [join (slice words i.toNat e.toNat) " "]
        if e = (words.length : Int) then some chunks
        else chunkLoop words size step fuel (i + step) chunks
    else some chunks

/-- Function `chunkText(text, size, overlap)` from line 101 on; `prod` is the
value of `int(float64(size) * (1 - overlap))` of line 100, see `f64Prod`: for
`0 < size ≤ 2^53` and an overlap in `[0,1)` it is a number from 0 to `size`.  A
loop that advances runs at most `len(words)` times, so the fuel
`len(words) + 1` is used up only by a loop that never ends (`size = 0`). -/
def chunkText (text : String) (size prod : Int) : Option (List String) :=
  let words := fields text
  chunkLoop words size (stepOf size prod) (words.length + 1) 0 []

/-- Function `chunkText(text, size, overlap)` with line 100 evaluated in
binary64. -/
def chunkTextOverlap (text : String) (size : Int) (overlap : F64) : Option (List String) :=
  (f64Prod size overlap).bind (fun prod => chunkText text size prod)

/-! ## Notions used to state the properties of `chunkText` -/

/-- A word: a non-empty string without a space character. -/
def IsWord (w : String) : Prop := w.data ≠ [] ∧ ∀ c ∈ w.data, isSpace c = false

/-- Fragment number `k` for window `w` and stride `s`: the words
`[k*s, min(k*s + w, n))` joined by single spaces. -/
def frag (words : List String) (w s k : Nat) : String :=
  join (slice words (k * s) (min (k * s + w) words.length)) " "

/-- Index of the first window that reaches the end of `n` words. -/
def lastWindow (n w s : Nat) : Nat := (n - w + (s - 1)) / s

/-- The stride in the words of the specification, in exact arithmetic:
`floor(W * (1 - f))`, replaced by `W` when that is not positive. -/
def claimedStride (W : Int) (f : ℚ) : Int :=
  if ⌊(W : ℚ) * (1 - f)⌋ ≤ 0 then W else ⌊(W : ℚ) * (1 - f)⌋

/-- The fragments in the words of the specification for the stride
`claimedStride W f`: none for a text without words, and otherwise the windows
`0 .. m`, with `m` the least `k` such that `k*s + W` reaches the word count. -/
def claimedChunks (text : String) (W : Int) (f : ℚ) : List String :=
  if (fields text).length = 0 then []
  else
    (List.range (lastWindow (fields text).length W.toNat (claimedStride W f).toNat + 1)).map
      (frag (fields text) W.toNat (claimedStride W f).toNat)

/-! ## Constants (main.go, lines 20-31) -/

/-- Constant `chunkSize`. -/
def chunkSize : Int := 400

/-- Value of `int(float64(chunkSize) * (1 - overlapPct))` for `chunkSize = 400`
and `overlapPct = 0.25`, that is `f64Prod 400 ⟨1, -2⟩`: the numbers 0.25, 0.75
and 300 are binary64 values, so the product is exactly 300. -/
def chunkProd : Int := 300

/-- Constant `topK`. -/
def topK : Nat := 10

/-- Constant `maxChars`. -/
def maxChars : Nat := 4000

/-! ## Context assembly of the query command (main.go, lines 198-208) -/

/-- The loop of lines 201-207 over the contents of the ranked results, with the
accepted parts `ctxParts` and their summed length `totalChars`; `budget` is the
value compared against (`maxChars` in the program). -/
def assembleLoop (budget : Nat) : List String → List String → Nat → List String
  | [], ctxParts, _ => ctxParts
  | doc :: rest, ctxParts, totalChars =>
    if totalChars + len doc > budget then ctxParts
    else assembleLoop budget rest (ctxParts ++ [doc]) (totalChars + len doc)

/-- Lines 199-208: the accepted parts joined with a newline. -/
def assemble (res : List String) (budget : Nat) : String :=
  join (assembleLoop budget res [] 0) "\n"

/-- Sum of the lengths of a list of fragments. -/
def sumLen (l : List String) : Nat := (l.map len).sum

/-! ## The query command (main.go, lines 176-227) -/

/-- A call of the query command to a collaborator. -/
inductive Call where
  /-- The call `coll.Count()`. -/
  | count
  /-- The call `coll.Query(ctx, q, n, nil, nil)`. -/
  | storeQuery (q : String) (n : Nat)
  /-- The call `generateOllama(prompt)`. -/
  | generate (prompt : String)
  deriving DecidableEq, Repr

/-- How the query command ends. -/
inductive QueryOutcome where
  /-- Line 181: the trimmed question is empty, the command ends without a message. -/
  | blank
  /-- Line 185: the message "Colección vacía: carga ficheros primero (load)". -/
  | emptyCollection
  /-- Line 194: the similarity query failed. -/
  | retrievalFailed (err : String)
  /-- Line 223: the generation call failed. -/
  | generationFailed (err : String)
  /-- Line 227: the answer is shown. -/
  | answered (ans : String)
  deriving DecidableEq, Repr

/-- A run of the query command: the collaborator calls in order and the outcome. -/
structure QueryRun where
  calls : List Call
  outcome : QueryOutcome
  deriving DecidableEq, Repr

/-- The prompt of lines 211-218. -/
def buildPrompt (context q : String) : String :=
  "Usa el siguiente contexto para responder la pregunta.\nSi el contexto no basta, responde con lo que sepas.\n\nContexto:\n"
    ++ context ++ "\n\nPregunta: " ++ q ++ "\nRespuesta:"

/-- Case "query" of the command loop.  `line` is the line read at the question
prompt, `count` the value of `coll.Count()` (a number of documents), `query`
the similarity query of the store and `generate` the generation service.  The
run records the calls to the collaborators and the way the command ends; the
debug lines printed on the way are left out. -/
def queryCmd (count : Nat) (query : String → Nat → Except String (List String))
    (generate : String → Except String String) (line : String) : QueryRun :=
  let q := trimSpace line
  if q = "" then ⟨[], .blank⟩
  else
    let cnt := count
    if cnt = 0 then ⟨[.count], .emptyCollection⟩
    else
      let n := if cnt < topK then cnt else topK
      match query q n with
      | .error err => ⟨[.count, .storeQuery q n], .retrievalFailed err⟩
      | .ok res =>
        let context := assemble res maxChars
        let prompt := buildPrompt context q
        match generate prompt with
        | .error err => ⟨[.count, .storeQuery q n, .generate prompt], .generationFailed err⟩
        | .ok ans => ⟨[.count, .storeQuery q n, .generate prompt], .answered ans⟩

/-! ## The load command (main.go, lines 152-174) -/

/-- Decimal digits of `n` in front of `acc`, by repeated division by ten (the
verb `%d` on a non-negative integer). -/
def digitsFrom : Nat → Nat → List Char → List Char
  | 0, _, acc => acc
  | fuel + 1, n, acc =>
    if n < 10 then Char.ofNat (48 + n) :: acc
    else digitsFrom fuel (n / 10) (Char.ofNat (48 + n % 10) :: acc)

/-- Decimal form of `n`, as `%d` prints it. -/
def itoa (n : Nat) : String := String.mk (digitsFrom (n + 1) n [])

/-- Line 164: `fmt.Sprintf("%s_%d", path, i)`. -/
def fragmentId (path : String) (i : Nat) : String := path ++ "_" ++ itoa i

/-- Lines 161-166: the ids of the fragments `chunks` of the document `path`,
from index `i` on. -/
def buildIds (path : String) : List String → Nat → List String
  | [], _ => []
  | _ :: rest, i => fragmentId path i :: buildIds path rest (i + 1)

/-- Lines 160-166: the batch `(ids, docs)` of a document, when `chunkText` returns. -/
def fragmentBatch (path content : String) : Option (List String × List String) :=
  (chunkText content chunkSize chunkProd).map (fun chunks => (buildIds path chunks 0, chunks))

/-- Value of a list of decimal digit characters (the inverse of `digitsFrom`). -/
def decodeDigits (l : List Char) : Nat := l.foldl (fun v c => 10 * v + (c.toNat - 48)) 0

/-- One call `coll.Add(ctx, ids, nil, nil, docs)` of the load command. -/
structure AddCall where
  path : String
  ids : List String
  docs : List String
  ok : Bool
  deriving DecidableEq, Repr

/-- Sum of the batch sizes of the add calls that succeeded. -/
def okTotal (adds : List AddCall) : Nat :=
  ((adds.filter (fun c => c.ok)).map (fun c => c.docs.length)).sum

/-- Result of a load pass: the store, the add calls in order, and the total of line 174. -/
structure LoadRun (σ : Type) where
  store : σ
  adds : List AddCall
  totalFragments : Nat

/-- The loop of lines 159-173 over the documents in iteration order.  `add` is
the add operation of the store: its error (`none` for `nil`) and the store
after the call. -/
def loadLoop {σ : Type} (add : σ → List String → List String → Option String × σ) :
    List (String × String) → σ → List AddCall → Nat → Option (LoadRun σ)
  | [], s, adds, totalFragments => some ⟨s, adds, totalFragments⟩
  | (path, content) :: rest, s, adds, totalFragments =>
    match fragmentBatch path content with
    | none => none
    | some (ids, docs) =>
      match add s ids docs with
      | (some _, s1) => loadLoop add rest s1 (adds ++ [⟨path, ids, docs, false⟩]) totalFragments
      | (none, s1) =>
        loadLoop add rest s1 (adds ++ [⟨path, ids, docs, true⟩]) (totalFragments + docs.length)

/-- Case "load" after `loadDir` returned the documents `docs`, a Go map from
path to content, given as the list of its entries in the order the `range`
loop visits them. -/
def loadCmd {σ : Type} (add : σ → List String → List String → Option String × σ)
    (s : σ) (docs : List (String × String)) : Option (LoadRun σ) :=
  loadLoop add docs s [] 0

/-! ## The update command (main.go, lines 229-244) -/

/-- How the update command ends. -/
inductive UpdateOutcome where
  /-- Line 237: the delete failed. -/
  | deleteFailed (err : String)
  /-- Line 241: the add failed. -/
  | addFailed (err : String)
  /-- Line 244: "fragmento actualizado". -/
  | updated
  deriving DecidableEq, Repr

/-- Case "update": `idLine` and `txtLine` are the two lines read; `delete` is
`coll.Delete(ctx, {"id": id}, nil, id)` and `add` is `coll.Add`. -/
def updateCmd {σ : Type} (delete : σ → String → Option String × σ)
    (add : σ → List String → List String → Option String × σ)
    (s : σ) (idLine txtLine : String) : UpdateOutcome × σ :=
  let id := trimSpace idLine
  let txt := trimSpace txtLine
  match delete s id with
  | (some err, s1) => (.deleteFailed err, s1)
  | (none, s1) =>
    match add s1 [id] [txt] with
    | (some err, s2) => (.addFailed err, s2)
    | (none, s2) => (.updated, s2)

/-! ## The vector store as a collection keyed by id -/

/-- Modelled from the spec: the vector store (an external library, not part of
the repository) as the collection of `(id, text)` fragments keyed by id. -/
abbrev KeyedStore := List (String × String)

/-- Modelled from the spec: delete-by-id removes the fragment with that id and
reports no error. -/
def KeyedStore.delete (s : KeyedStore) (id : String) : Option String × KeyedStore :=
  (none, s.filter (fun f => f.1 ≠ id))

/-- Modelled from the spec: adding a fragment under an id puts it in place of
any fragment with that id. -/
def KeyedStore.put (s : KeyedStore) (f : String × String) : KeyedStore :=
  s.filter (fun g => g.1 ≠ f.1) ++ [f]

/-- Modelled from the spec: add-by-id of a batch inserts each `(id, text)` pair
and reports no error. -/
def KeyedStore.add (s : KeyedStore) (ids docs : List String) : Option String × KeyedStore :=
  (none, (ids.zip docs).foldl KeyedStore.put s)

/-! ## Lemmas on `fields` and `join` -/

theorem fieldsFrom_isWord (cs : List Char) :
    ∀ cur : List Char, (∀ c ∈ cur, isSpace c = false) →
      ∀ w ∈ fieldsFrom cs cur, IsWord w := by
  induction cs with
  | nil =>
    intro cur hcur w hw
    by_cases h : cur = []
    · simp [fieldsFrom, h] at hw
    · simp only [fieldsFrom, h, if_false, List.mem_singleton] at hw
      subst hw
      exact ⟨by simpa using h, by simpa using hcur⟩
  | cons c cs ih =>
    intro cur hcur w hw
    by_cases hc : isSpace c = true
    · by_cases h : cur = []
      · simp only [fieldsFrom, hc, h, if_true] at hw
        exact ih [] (by simp) w hw
      · simp only [fieldsFrom, hc, h, if_true, if_false, List.mem_cons] at hw
        rcases hw with hw | hw
        · subst hw
          exact ⟨by simpa using h, by simpa using hcur⟩
        · exact ih [] (by simp) w hw
    · simp only [fieldsFrom, hc] at hw
      refine ih (c :: cur) ?_ w hw
      intro d hd
      rcases List.mem_cons.mp hd with hd | hd
      · subst hd; simpa using hc
      · exact hcur d hd

theorem fields_isWord (s : String) : ∀ w ∈ fields s, IsWord w :=
  fieldsFrom_isWord s.data [] (by simp)

theorem fieldsFrom_append_word (w : List Char) (hw : ∀ c ∈ w, isSpace c = false) :
    ∀ (rest cur : List Char), fieldsFrom (w ++ rest) cur = fieldsFrom rest (w.reverse ++ cur) := by
  induction w with
  | nil => intro rest cur; simp
  | cons c w ih =>
    intro rest cur
    have hc : isSpace c = false := hw c (by simp)
    have hw2 : ∀ d ∈ w, isSpace d = false := fun d hd => hw d (by simp [hd])
    show fieldsFrom (c :: (w ++ rest)) cur = fieldsFrom rest ((c :: w).reverse ++ cur)
    rw [fieldsFrom]
    simp only [hc, Bool.false_eq_true, if_false]
    rw [ih hw2]
    simp

theorem join_cons_cons (a b : String) (rest : List String) (sep : String) :
    join (a :: b :: rest) sep = a ++ sep ++ join (b :: rest) sep := rfl

theorem fields_join (ws : List String) (h : ∀ w ∈ ws, IsWord w) :
    fields (join ws " ") = ws := by
  induction ws with
  | nil => rfl
  | cons a rest ih =>
    cases rest with
    | nil =>
      have ha := h a (by simp)
      show fieldsFrom a.data [] = [a]
      have := fieldsFrom_append_word a.data ha.2 [] []
      simp only [List.append_nil] at this
      rw [this]
      simp [fieldsFrom, ha.1]
    | cons b rest =>
      have ha := h a (by simp)
      have ih2 := ih (fun w hw => h w (by simp [hw]))
      show fieldsFrom (join (a :: b :: rest) " ").data [] = a :: b :: rest
      rw [join_cons_cons]
      have hd : (a ++ " " ++ join (b :: rest) " ").data
          = a.data ++ (' ' :: (join (b :: rest) " ").data) := by
        simp [String.data_append]
      rw [hd, fieldsFrom_append_word a.data ha.2]
      have hsp : isSpace ' ' = true := by decide
      simp only [fieldsFrom, hsp, if_true, List.append_nil]
      have hne : ¬ a.data.reverse = [] := by simpa using ha.1
      simp only [hne, if_false, List.reverse_reverse]
      unfold fields at ih2
      rw [ih2]

theorem slice_length (words : List String) (i e : Nat) (he : e ≤ words.length) :
    (slice words i e).length = e - i := by
  unfold slice
  simp only [List.length_take, List.length_drop]
  omega

theorem slice_mem {words : List String} {i e : Nat} {w : String}
    (h : w ∈ slice words i e) : w ∈ words :=
  List.mem_of_mem_drop (List.mem_of_mem_take h)

/-- The words of a fragment built from a word range are that range. -/
theorem fields_join_slice (text : String) (i e : Nat) :
    fields (join (slice (fields text) i e) " ") = slice (fields text) i e :=
  fields_join _ (fun w hw => fields_isWord text w (slice_mem hw))

/-! ## The windows of `chunkText` -/

theorem lastWindow_reaches (n w s : Nat) (hs : 0 < s) : n ≤ lastWindow n w s * s + w := by
  unfold lastWindow
  have h1 := Nat.div_add_mod (n - w + (s - 1)) s
  have h2 := Nat.mod_lt (n - w + (s - 1)) hs
  have h3 : s * ((n - w + (s - 1)) / s) = (n - w + (s - 1)) / s * s := Nat.mul_comm _ _
  omega

theorem lastWindow_least (n w s : Nat) (hs : 0 < s) :
    ∀ k, k < lastWindow n w s → k * s + w < n := by
  intro k hk
  have h1 := Nat.div_add_mod (n - w + (s - 1)) s
  have h3 : s * ((n - w + (s - 1)) / s) = (n - w + (s - 1)) / s * s := Nat.mul_comm _ _
  have h4 : (k + 1) * s ≤ lastWindow n w s * s := Nat.mul_le_mul_right s hk
  have h5 : (k + 1) * s = k * s + s := by ring
  unfold lastWindow at h4 hk
  omega

theorem lastWindow_le (n w s : Nat) (hs : 0 < s) (hsw : s ≤ w) : lastWindow n w s ≤ n := by
  unfold lastWindow
  by_cases hn : n = 0
  · subst hn
    have h : 0 - w + (s - 1) < s := by omega
    rw [Nat.div_eq_of_lt h]
  · have h : n - w + (s - 1) ≤ n * s := by
      have h1 : n * s = (n - 1) * s + s := by
        have : n = (n - 1) + 1 := by omega
        conv_lhs => rw [this]
        ring
      have h2 : n - 1 ≤ (n - 1) * s := Nat.le_mul_of_pos_right _ hs
      omega
    exact (Nat.div_le_div_right h).trans (by rw [Nat.mul_div_cancel _ hs])

theorem chunkLoop_windows (words : List String) (w s m : Nat) (hsw : s ≤ w)
    (hn : 0 < words.length) (hm1 : words.length ≤ m * s + w)
    (hm2 : ∀ k, k < m → k * s + w < words.length) :
    ∀ (fuel k : Nat) (chunks : List String), k ≤ m → m - k < fuel →
      chunkLoop words (w : Int) (s : Int) fuel ((k * s : Nat) : Int) chunks
        = some (chunks ++ (List.range' k (m + 1 - k)).map (frag words w s)) := by
  intro fuel
  induction fuel with
  | zero => intro k chunks _ h; omega
  | succ fuel ih =>
    intro k chunks hk hfuel
    have hi : k * s < words.length := by
      rcases Nat.eq_zero_or_pos k with h0 | hpos
      · subst h0; simpa using hn
      · have h1 := hm2 (k - 1) (by omega)
        have h2 : k * s = (k - 1) * s + s := by
          have : k = (k - 1) + 1 := by omega
          conv_lhs => rw [this]
          ring
        omega
    rw [chunkLoop]
    have hi2 : ((k * s : Nat) : Int) < (words.length : Int) := by exact_mod_cast hi
    simp only [hi2, if_true]
    by_cases hend : words.length ≤ k * s + w
    · -- the window reaches the end: `k = m`
      have hkm : k = m := by
        by_contra hne
        have := hm2 k (by omega)
        omega
      subst hkm
      have he : (if ((k * s : Nat) : Int) + (w : Int) > (words.length : Int)
          then (words.length : Int) else ((k * s : Nat) : Int) + (w : Int))
          = (words.length : Int) := by
        split_ifs with h
        · rfl
        · push_cast at h ⊢; omega
      simp only [he]
      have hnp : ¬ (((k * s : Nat) : Int) < 0 ∨ (words.length : Int) < ((k * s : Nat) : Int)) := by
        push_cast; omega
      simp only [hnp, if_false, if_true]
      have hr : List.range' k (k + 1 - k) = [k] := by
        have : k + 1 - k = 1 := by omega
        rw [this]; rfl
      rw [hr]
      simp only [List.map_cons, List.map_nil, frag, Int.toNat_ofNat]
      rw [Nat.min_eq_right hend]
    · -- a full window that stops short of the end
      have hlt : k * s + w < words.length := by omega
      have hkm : k < m := by
        by_contra hge
        have : k = m := by omega
        subst this
        omega
      have he : (if ((k * s : Nat) : Int) + (w : Int) > (words.length : Int)
          then (words.length : Int) else ((k * s : Nat) : Int) + (w : Int))
          = ((k * s + w : Nat) : Int) := by
        split_ifs with h
        · push_cast at h; omega
        · push_cast; rfl
      simp only [he]
      have hnp : ¬ (((k * s : Nat) : Int) < 0 ∨ ((k * s + w : Nat) : Int) < ((k * s : Nat) : Int)) := by
        push_cast; omega
      have hne : ¬ (((k * s + w : Nat) : Int) = (words.length : Int)) := by
        intro h
        have : k * s + w = words.length := by exact_mod_cast h
        omega
      simp only [hnp, hne, if_false]
      have hnext : ((k * s : Nat) : Int) + (s : Int) = (((k + 1) * s : Nat) : Int) := by
        push_cast; ring
      rw [hnext, ih (k + 1) _ (by omega) (by omega)]
      have hr : List.range' k (m + 1 - k) = k :: List.range' (k + 1) (m + 1 - (k + 1)) := by
        have : m + 1 - k = (m + 1 - (k + 1)) + 1 := by omega
        rw [this]; rfl
      rw [hr]
      simp only [List.map_cons, List.append_assoc, List.singleton_append, frag, Int.toNat_ofNat]
      rw [Nat.min_eq_left (Nat.le_of_lt hlt)]

/-! ## Binary64 arithmetic -/

theorem bitLen_zero (fuel : Nat) : bitLen fuel 0 = 0 := by
  cases fuel <;> simp [bitLen]

theorem bitLen_lower : ∀ (fuel n : Nat), n ≤ fuel → n ≠ 0 → 2 ^ (bitLen fuel n - 1) ≤ n := by
  intro fuel
  induction fuel with
  | zero => intro n h h0; omega
  | succ fuel ih =>
    intro n hn h0
    simp only [bitLen, h0, if_false, Nat.add_sub_cancel]
    by_cases h2 : n / 2 = 0
    · rw [h2, bitLen_zero]
      simp
      omega
    · have := ih (n / 2) (by omega) h2
      have hb : bitLen fuel (n / 2) ≠ 0 := by
        cases fuel with
        | zero => omega
        | succ f => simp [bitLen, h2]
      have h3 : bitLen fuel (n / 2) = (bitLen fuel (n / 2) - 1) + 1 := by omega
      rw [h3, Nat.pow_succ]
      omega

theorem bits_lower (a : Nat) (h : a ≠ 0) : 2 ^ (bits a - 1) ≤ a :=
  bitLen_lower a a (le_refl a) h

theorem roundNat_le (a : Nat) (e : Int) (N : Nat) (hN : N ≤ 2 ^ 53)
    (h : (a : ℚ) * (2 : ℚ) ^ e ≤ (N : ℚ)) :
    ((roundNat a e).1 : ℚ) * (2 : ℚ) ^ (roundNat a e).2 ≤ (N : ℚ) := by
  obtain ⟨d, hd⟩ : ∃ d : Nat, d = max (bits a - 53) (-1074 - e).toNat := ⟨_, rfl⟩
  have hdiv := Nat.div_add_mod a (2 ^ d)
  have hr : a % 2 ^ d < 2 ^ d := Nat.mod_lt _ (Nat.two_pow_pos _)
  have hpe : (0 : ℚ) < (2 : ℚ) ^ e := zpow_pos (by norm_num) e
  have hg : (2 : ℚ) ^ (e + (d : Int)) = (2 : ℚ) ^ e * (2 : ℚ) ^ d := by
    rw [zpow_add₀ (by norm_num : (2 : ℚ) ≠ 0), zpow_natCast]
  have hsplit : (a : ℚ) * (2 : ℚ) ^ e
      = ((a / 2 ^ d : Nat) : ℚ) * (2 : ℚ) ^ (e + (d : Int)) + ((a % 2 ^ d : Nat) : ℚ) * (2 : ℚ) ^ e := by
    rw [hg]
    have : (a : ℚ) = (2 : ℚ) ^ d * ((a / 2 ^ d : Nat) : ℚ) + ((a % 2 ^ d : Nat) : ℚ) := by
      exact_mod_cast hdiv.symm
    conv_lhs => rw [this]
    ring
  have hrnn : (0 : ℚ) ≤ ((a % 2 ^ d : Nat) : ℚ) * (2 : ℚ) ^ e :=
    mul_nonneg (Nat.cast_nonneg _) hpe.le
  unfold roundNat
  simp only [← hd]
  split_ifs with hup
  · -- rounded up
    have hrpos : 0 < a % 2 ^ d := by
      have : 0 < 2 ^ d := Nat.two_pow_pos _
      rcases hup with h1 | ⟨h1, -⟩ <;> omega
    have hrq : (0 : ℚ) < ((a % 2 ^ d : Nat) : ℚ) * (2 : ℚ) ^ e :=
      mul_pos (by exact_mod_cast hrpos) hpe
    have hlt : ((a / 2 ^ d : Nat) : ℚ) * (2 : ℚ) ^ (e + (d : Int)) < (N : ℚ) := by linarith
    by_cases he : e + (d : Int) ≤ 0
    · obtain ⟨k, hk⟩ : ∃ k : Nat, e + (d : Int) = -(k : Int) := ⟨(-(e + d)).toNat, by omega⟩
      rw [hk] at hlt ⊢
      rw [zpow_neg, zpow_natCast] at hlt ⊢
      have hkpos : (0 : ℚ) < (2 : ℚ) ^ k := by positivity
      have h1 : ((a / 2 ^ d : Nat) : ℚ) < (N : ℚ) * (2 : ℚ) ^ k := by
        rwa [← div_eq_mul_inv, div_lt_iff₀ hkpos] at hlt
      have h2 : a / 2 ^ d < N * 2 ^ k := by exact_mod_cast h1
      have h3 : (((a / 2 ^ d + 1 : Nat)) : ℚ) ≤ (N : ℚ) * (2 : ℚ) ^ k := by
        exact_mod_cast (show a / 2 ^ d + 1 ≤ N * 2 ^ k from h2)
      rw [← div_eq_mul_inv, div_le_iff₀ hkpos]
      exact h3
    · exfalso
      have hd2 : d = bits a - 53 := by omega
      have hd1 : 0 < d := by
        by_contra h0
        have : d = 0 := by omega
        subst this
        simp at hrpos
        omega
      have ha0 : a ≠ 0 := by
        intro h0
        subst h0
        simp at hrpos
      have hb := bits_lower a ha0
      have hb2 : bits a - 1 = d + 52 := by omega
      rw [hb2] at hb
      have hq : 2 ^ 52 ≤ a / 2 ^ d := by
        rw [Nat.le_div_iff_mul_le (Nat.two_pow_pos _)]
        calc 2 ^ 52 * 2 ^ d = 2 ^ (d + 52) := by rw [Nat.pow_add]; ring
          _ ≤ a := hb
      have hq' : (2 : ℚ) ^ 52 ≤ ((a / 2 ^ d : Nat) : ℚ) := by exact_mod_cast hq
      have hg2 : (2 : ℚ) ≤ (2 : ℚ) ^ (e + (d : Int)) := by
        have : (2 : ℚ) ^ (1 : Int) ≤ (2 : ℚ) ^ (e + (d : Int)) :=
          zpow_le_zpow_right₀ (by norm_num) (by omega)
        simpa using this
      have hN' : (N : ℚ) ≤ (2 : ℚ) ^ 53 := by exact_mod_cast hN
      have : (2 : ℚ) ^ 53 ≤ ((a / 2 ^ d : Nat) : ℚ) * (2 : ℚ) ^ (e + (d : Int)) := by
        calc (2 : ℚ) ^ 53 = (2 : ℚ) ^ 52 * 2 := by norm_num
          _ ≤ ((a / 2 ^ d : Nat) : ℚ) * (2 : ℚ) ^ (e + (d : Int)) :=
            mul_le_mul hq' hg2 (by norm_num) (Nat.cast_nonneg _)
      linarith
  · linarith

theorem F64.round_nonneg_le (m e : Int) (N : Nat) (hm : 0 ≤ m) (hN : N ≤ 2 ^ 53)
    (h : (m : ℚ) * (2 : ℚ) ^ e ≤ (N : ℚ)) :
    0 ≤ (F64.round m e).m ∧ (F64.round m e).toRat ≤ (N : ℚ) := by
  have hlt : ¬ m < 0 := by omega
  have hcast : ((m.natAbs : Nat) : ℚ) = (m : ℚ) := by
    obtain ⟨n, rfl⟩ := Int.eq_ofNat_of_zero_le hm
    simp
  have key := roundNat_le m.natAbs e N hN (by rw [hcast]; exact h)
  unfold F64.round F64.toRat
  simp only [hlt, if_false]
  exact ⟨Int.natCast_nonneg _, by exact_mod_cast key⟩

theorem F64.oneMinus_bounds (f : F64) (h0 : 0 ≤ f.toRat) (h1 : f.toRat < 1) :
    0 ≤ (F64.oneMinus f).m ∧ (F64.oneMinus f).toRat ≤ 1 := by
  have hpe : (0 : ℚ) < (2 : ℚ) ^ f.e := zpow_pos (by norm_num) f.e
  have hm : 0 ≤ f.m := by
    unfold F64.toRat at h0
    have : (0 : ℚ) ≤ (f.m : ℚ) := nonneg_of_mul_nonneg_left h0 hpe
    exact_mod_cast this
  unfold F64.oneMinus
  split_ifs with he
  · obtain ⟨k, hk⟩ : ∃ k : Nat, f.e = -(k : Int) := ⟨(-f.e).toNat, by omega⟩
    have hk2 : (-f.e).toNat = k := by omega
    rw [hk2]
    have hkpos : (0 : ℚ) < (2 : ℚ) ^ k := by positivity
    have hfe : (2 : ℚ) ^ f.e = ((2 : ℚ) ^ k)⁻¹ := by rw [hk, zpow_neg, zpow_natCast]
    have hmlt : (f.m : ℚ) < (2 : ℚ) ^ k := by
      unfold F64.toRat at h1
      rwa [hfe, ← div_eq_mul_inv, div_lt_one hkpos] at h1
    have hmlt' : f.m < 2 ^ k := by exact_mod_cast hmlt
    have hval : (((2 : Int) ^ k - f.m : Int) : ℚ) * (2 : ℚ) ^ f.e ≤ ((1 : Nat) : ℚ) := by
      push_cast
      rw [hfe, sub_mul, mul_inv_cancel₀ hkpos.ne']
      have : (0 : ℚ) ≤ (f.m : ℚ) * ((2 : ℚ) ^ k)⁻¹ :=
        mul_nonneg (by exact_mod_cast hm) (inv_nonneg.mpr hkpos.le)
      linarith
    have := F64.round_nonneg_le (2 ^ k - f.m) f.e 1 (by omega) (by norm_num) hval
    simpa using this
  · have hm0 : f.m = 0 := by
      by_contra hne
      have hm1 : (1 : ℚ) ≤ (f.m : ℚ) := by
        have : 1 ≤ f.m := by omega
        exact_mod_cast this
      have h2 : (1 : ℚ) ≤ (2 : ℚ) ^ f.e := by
        have : (2 : ℚ) ^ (0 : Int) ≤ (2 : ℚ) ^ f.e :=
          zpow_le_zpow_right₀ (by norm_num) (by omega)
        simpa using this
      unfold F64.toRat at h1
      have : (1 : ℚ) ≤ (f.m : ℚ) * (2 : ℚ) ^ f.e := by
        calc (1 : ℚ) = 1 * 1 := by norm_num
          _ ≤ (f.m : ℚ) * (2 : ℚ) ^ f.e := mul_le_mul hm1 h2 (by norm_num) (by linarith)
      linarith
    rw [hm0]
    have := F64.round_nonneg_le (1 - 0 * 2 ^ f.e.toNat) 0 1 (by norm_num) (by norm_num)
      (by norm_num)
    simpa using this

theorem F64.trunc_bounds (p : F64) (hp : 0 ≤ p.m) :
    0 ≤ F64.trunc p ∧ ((F64.trunc p : Int) : ℚ) ≤ p.toRat := by
  unfold F64.trunc F64.toRat
  split_ifs with he
  · obtain ⟨k, hk⟩ : ∃ k : Nat, p.e = (k : Int) := ⟨p.e.toNat, by omega⟩
    have hk2 : p.e.toNat = k := by omega
    rw [hk2, hk, zpow_natCast]
    refine ⟨mul_nonneg hp (by positivity), ?_⟩
    push_cast
    exact le_refl _
  · obtain ⟨k, hk⟩ : ∃ k : Nat, p.e = -(k : Int) := ⟨(-p.e).toNat, by omega⟩
    have hk2 : (-p.e).toNat = k := by omega
    rw [hk2, hk, zpow_neg, zpow_natCast]
    have hpos : (0 : Int) < 2 ^ k := by positivity
    rw [Int.tdiv_eq_ediv hp hpos.le]
    have hkpos : (0 : ℚ) < (2 : ℚ) ^ k := by positivity
    refine ⟨Int.ediv_nonneg hp hpos.le, ?_⟩
    rw [← div_eq_mul_inv, le_div_iff₀ hkpos]
    have := Int.ediv_mul_le p.m (ne_of_gt hpos)
    exact_mod_cast this

theorem f64Prod_bounds (W : Int) (f : F64) (hW : 0 < W) (hW2 : W ≤ 2 ^ 53)
    (h0 : 0 ≤ f.toRat) (h1 : f.toRat < 1) :
    ∃ prod, f64Prod W f = some prod ∧ 0 ≤ prod ∧ prod ≤ W := by
  obtain ⟨N, rfl⟩ : ∃ N : Nat, W = (N : Int) := ⟨W.toNat, by omega⟩
  have hN2 : N ≤ 2 ^ 53 := by exact_mod_cast hW2
  have hw : 0 ≤ (F64.ofInt N).m ∧ (F64.ofInt N).toRat ≤ (N : ℚ) :=
    F64.round_nonneg_le N 0 N (by omega) hN2 (by simp)
  have hy := F64.oneMinus_bounds f h0 h1
  have hym : (0 : ℚ) ≤ ((F64.oneMinus f).m : ℚ) := by exact_mod_cast hy.1
  have hwm : (0 : ℚ) ≤ ((F64.ofInt N).m : ℚ) := by exact_mod_cast hw.1
  have hexact : (((F64.ofInt N).m * (F64.oneMinus f).m : Int) : ℚ)
      * (2 : ℚ) ^ ((F64.ofInt N).e + (F64.oneMinus f).e)
      = (F64.ofInt N).toRat * (F64.oneMinus f).toRat := by
    unfold F64.toRat
    rw [zpow_add₀ (by norm_num : (2 : ℚ) ≠ 0)]
    push_cast
    ring
  have hynn : 0 ≤ (F64.oneMinus f).toRat := by
    unfold F64.toRat
    exact mul_nonneg hym (zpow_pos (by norm_num) _).le
  have hprod : (F64.ofInt N).toRat * (F64.oneMinus f).toRat ≤ (N : ℚ) := by
    calc (F64.ofInt N).toRat * (F64.oneMinus f).toRat
        ≤ (N : ℚ) * 1 := mul_le_mul hw.2 hy.2 hynn (Nat.cast_nonneg _)
      _ = (N : ℚ) := by ring
  have hp : 0 ≤ (F64.mul (F64.ofInt N) (F64.oneMinus f)).m ∧
      (F64.mul (F64.ofInt N) (F64.oneMinus f)).toRat ≤ (N : ℚ) :=
    F64.round_nonneg_le ((F64.ofInt N).m * (F64.oneMinus f).m)
      ((F64.ofInt N).e + (F64.oneMinus f).e) N (mul_nonneg hw.1 hy.1) hN2
      (by rw [hexact]; exact hprod)
  have ht := F64.trunc_bounds (F64.mul (F64.ofInt N) (F64.oneMinus f)) hp.1
  have htle : F64.trunc (F64.mul (F64.ofInt N) (F64.oneMinus f)) ≤ (N : Int) := by
    have h3 := ht.2.trans hp.2
    exact_mod_cast h3
  refine ⟨F64.trunc (F64.mul (F64.ofInt N) (F64.oneMinus f)), ?_, ht.1, htle⟩
  unfold f64Prod
  have hr : (-2 ^ 63 ≤ F64.trunc (F64.mul (F64.ofInt N) (F64.oneMinus f)) ∧
      F64.trunc (F64.mul (F64.ofInt N) (F64.oneMinus f)) < 2 ^ 63) := by
    have := ht.1
    constructor <;> omega
  simp only [hr, and_self, if_true]


/-- The program's window 400 and overlap 0.25 give the product 300. -/
theorem f64Prod_chunkSize : f64Prod chunkSize ⟨1, -2⟩ = some chunkProd := by
  decide

/-! ## The stride and the windows -/

theorem stepOf_pos (W prod : Int) (hW : 0 < W) : 0 < stepOf W prod := by
  unfold stepOf
  split_ifs with h <;> omega

theorem stepOf_le {W prod : Int} (hprod : prod ≤ W) : stepOf W prod ≤ W := by
  unfold stepOf
  split_ifs with h <;> omega

theorem chunkText_of_no_words (T : String) (W prod : Int) (h : (fields T).length = 0) :
    chunkText T W prod = some [] := by
  unfold chunkText
  rw [chunkLoop]
  simp [h]

/-- With a positive window and a stride of at most the window, `chunkText`
returns the windows `0 .. lastWindow`. -/
theorem chunkText_windows (T : String) (W prod : Int) (hW : 0 < W) (hprod : prod ≤ W)
    (hn : 0 < (fields T).length) :
    chunkText T W prod
      = some ((List.range (lastWindow (fields T).length W.toNat (stepOf W prod).toNat + 1)).map
          (frag (fields T) W.toNat (stepOf W prod).toNat)) := by
  have hs := stepOf_pos W prod hW
  have hsw := stepOf_le hprod
  have hWc : W = ((W.toNat : Nat) : Int) := (Int.toNat_of_nonneg (le_of_lt hW)).symm
  have hsc : stepOf W prod = (((stepOf W prod).toNat : Nat) : Int) :=
    (Int.toNat_of_nonneg (le_of_lt hs)).symm
  have hs' : 0 < (stepOf W prod).toNat := by omega
  have hsw' : (stepOf W prod).toNat ≤ W.toNat := by omega
  have key := chunkLoop_windows (fields T) W.toNat (stepOf W prod).toNat
    (lastWindow (fields T).length W.toNat (stepOf W prod).toNat) hsw' hn
    (lastWindow_reaches _ _ _ hs') (lastWindow_least _ _ _ hs')
    ((fields T).length + 1) 0 [] (Nat.zero_le _)
    (by have := lastWindow_le (fields T).length W.toNat _ hs' hsw'; omega)
  unfold chunkText
  simp only [Nat.zero_mul, Nat.sub_zero, List.nil_append, ← hWc, ← hsc] at key
  rw [List.range_eq_range']
  exact key

theorem chunkTextOverlap_of_prod (T : String) (W : Int) (f : F64) (prod : Int)
    (h : f64Prod W f = some prod) : chunkTextOverlap T W f = chunkText T W prod := by
  simp [chunkTextOverlap, h]

theorem window_covers (n w s m j : Nat) (hs : 0 < s) (hsw : s ≤ w) (hm : n ≤ m * s + w)
    (hj : j < n) : ∃ k, k ≤ m ∧ k * s ≤ j ∧ j < min (k * s + w) n := by
  by_cases h : j / s ≤ m
  · refine ⟨j / s, h, Nat.div_mul_le_self j s, ?_⟩
    have h1 := Nat.div_add_mod j s
    have h2 := Nat.mod_lt j hs
    have h3 : s * (j / s) = j / s * s := Nat.mul_comm _ _
    rw [Nat.lt_min]
    omega
  · refine ⟨m, le_refl m, ?_, ?_⟩
    · have h1 : m * s ≤ j / s * s := Nat.mul_le_mul_right s (by omega)
      exact h1.trans (Nat.div_mul_le_self j s)
    · rw [Nat.lt_min]
      omega

theorem window_no_gap (n w s k : Nat) (hsw : s ≤ w) (hk : k * s + w < n) :
    (k + 1) * s ≤ min (k * s + w) n := by
  have h : (k + 1) * s = k * s + s := by ring
  rw [Nat.le_min]
  omega

theorem window_start_lt (n w s m : Nat) (hsw : s ≤ w) (hn : 0 < n)
    (hm : ∀ k, k < m → k * s + w < n) : m * s < n := by
  rcases Nat.eq_zero_or_pos m with h0 | hpos
  · subst h0; simpa using hn
  · have h1 := hm (m - 1) (by omega)
    have h2 : m * s = (m - 1) * s + s := by
      have : m = (m - 1) + 1 := by omega
      conv_lhs => rw [this]
      ring
    omega

theorem slice_to_end (words : List String) (i : Nat) :
    slice words i words.length = words.drop i := by
  unfold slice
  rw [List.take_of_length_le]
  simp

/-! ## Context assembly -/

theorem sumLen_take_succ_ge (doc : String) (rest : List String) (j : Nat) (hj : 0 < j) :
    len doc ≤ sumLen ((doc :: rest).take j) := by
  obtain ⟨i, rfl⟩ : ∃ i, j = i + 1 := ⟨j - 1, by omega⟩
  simp [sumLen]

theorem assembleLoop_spec (B : Nat) :
    ∀ (res ctxParts : List String) (total : Nat),
      ∃ k, k ≤ res.length ∧ assembleLoop B res ctxParts total = ctxParts ++ res.take k ∧
        (total ≤ B → total + sumLen (res.take k) ≤ B) ∧
        (∀ j, k < j → j ≤ res.length → B < total + sumLen (res.take j)) := by
  intro res
  induction res with
  | nil =>
    intro ctxParts total
    exact ⟨0, le_refl _, by simp [assembleLoop], by simp [sumLen], by intro j h1 h2; simp at h2; omega⟩
  | cons doc rest ih =>
    intro ctxParts total
    by_cases h : total + len doc > B
    · refine ⟨0, Nat.zero_le _, by simp [assembleLoop, h], by simp [sumLen], ?_⟩
      intro j hj _
      have := sumLen_take_succ_ge doc rest j hj
      omega
    · obtain ⟨k, hk, heq, hfit, hmax⟩ := ih (ctxParts ++ [doc]) (total + len doc)
      refine ⟨k + 1, by simpa using hk, ?_, ?_, ?_⟩
      · simp [assembleLoop, h, heq]
      · intro _
        have := hfit (by omega)
        simp only [List.take_succ_cons, sumLen, List.map_cons, List.sum_cons] at this ⊢
        omega
      · intro j hj hjl
        obtain ⟨i, rfl⟩ : ∃ i, j = i + 1 := ⟨j - 1, by omega⟩
        have := hmax i (by omega) (by simpa using hjl)
        simp only [List.take_succ_cons, sumLen, List.map_cons, List.sum_cons] at this ⊢
        omega

theorem len_append (a b : String) : len (a ++ b) = len a + len b := by
  obtain ⟨a⟩ := a
  obtain ⟨b⟩ := b
  show String.utf8ByteSize (String.mk (a ++ b)) = _
  simp only [len, String.utf8ByteSize_mk, String.utf8Len_append]

theorem len_replicate (n : Nat) (c : Char) (hc : c.utf8Size = 1) :
    len (String.mk (List.replicate n c)) = n := by
  induction n with
  | zero => rfl
  | succ n ih =>
    simp only [len, String.utf8ByteSize_mk, List.replicate_succ, String.utf8Len_cons] at ih ⊢
    omega

/-- Two fragments that fit the budget together are both accepted, and the
context is one byte longer than their summed lengths. -/
theorem len_assemble_pair (a b : String) (B : Nat) (h : len a + len b ≤ B) :
    len (assemble [a, b] B) = len a + len b + 1 := by
  have h1 : ¬ (0 + len a > B) := by omega
  have h2 : ¬ (0 + len a + len b > B) := by omega
  have hnl : len "\n" = 1 := by decide
  simp only [assemble, assembleLoop, h1, h2, if_false, List.nil_append, List.cons_append,
    join, len_append, hnl]
  omega

/-! ## The query command -/

theorem queryCmd_of_blank (count : Nat) (query : String → Nat → Except String (List String))
    (generate : String → Except String String) (line : String) (h : trimSpace line = "") :
    queryCmd count query generate line = ⟨[], .blank⟩ := by
  simp [queryCmd, h]

theorem queryCmd_of_empty (query : String → Nat → Except String (List String))
    (generate : String → Except String String) (line : String) (h : trimSpace line ≠ "") :
    queryCmd 0 query generate line = ⟨[.count], .emptyCollection⟩ := by
  simp [queryCmd, h]

/-- The number of results requested for a collection of `count` fragments. -/
theorem clamp_eq_min (count : Nat) : (if count < topK then count else topK) = min 10 count := by
  unfold topK
  split_ifs with h
  · exact (Nat.min_eq_right (Nat.le_of_lt h)).symm
  · exact (Nat.min_eq_left (by omega)).symm

theorem queryCmd_calls (count : Nat) (query : String → Nat → Except String (List String))
    (generate : String → Except String String) (line : String)
    (hq : trimSpace line ≠ "") (hc : 0 < count) :
    ∃ rest, (queryCmd count query generate line).calls
      = Call.count :: Call.storeQuery (trimSpace line) (min 10 count) :: rest ∧
      ∀ c ∈ rest, ∃ p, c = Call.generate p := by
  have hc0 : count ≠ 0 := by omega
  unfold queryCmd
  simp only [hq, hc0, if_false, clamp_eq_min]
  split
  · exact ⟨[], rfl, by simp⟩
  · split
    · exact ⟨[Call.generate _], rfl, by simp⟩
    · exact ⟨[Call.generate _], rfl, by simp⟩

/-- With a positive window and `prod ≤ W`, `chunkText` returns a list. -/
theorem chunkText_returns (T : String) (W prod : Int) (hW : 0 < W) (hprod : prod ≤ W) :
    ∃ chunks, chunkText T W prod = some chunks := by
  rcases Nat.eq_zero_or_pos (fields T).length with h0 | hn
  · exact ⟨[], chunkText_of_no_words T W prod h0⟩
  · exact ⟨_, chunkText_windows T W prod hW hprod hn⟩

/-! ## Fragment ids -/

theorem digitsFrom_acc : ∀ (fuel n : Nat) (acc : List Char),
    digitsFrom fuel n acc = digitsFrom fuel n [] ++ acc := by
  intro fuel
  induction fuel with
  | zero => intro n acc; simp [digitsFrom]
  | succ fuel ih =>
    intro n acc
    by_cases h : n < 10
    · simp [digitsFrom, h]
    · simp only [digitsFrom, h, if_false]
      rw [ih (n / 10) (Char.ofNat (48 + n % 10) :: acc), ih (n / 10) [Char.ofNat (48 + n % 10)]]
      simp

theorem digit_toNat (d : Nat) (hd : d < 10) : (Char.ofNat (48 + d)).toNat - 48 = d := by
  interval_cases d <;> rfl

theorem decodeDigits_digitsFrom : ∀ (fuel n : Nat), n < fuel →
    decodeDigits (digitsFrom fuel n []) = n := by
  intro fuel
  induction fuel with
  | zero => intro n h; omega
  | succ fuel ih =>
    intro n hn
    by_cases h : n < 10
    · simp only [digitsFrom, h, if_true, decodeDigits, List.foldl_cons, List.foldl_nil]
      rw [digit_toNat n h]
      omega
    · simp only [digitsFrom, h, if_false]
      rw [digitsFrom_acc]
      have ih2 := ih (n / 10) (by omega)
      unfold decodeDigits at ih2 ⊢
      rw [List.foldl_append, ih2]
      simp only [List.foldl_cons, List.foldl_nil]
      rw [digit_toNat (n % 10) (Nat.mod_lt n (by decide))]
      omega

theorem itoa_injective : Function.Injective itoa := by
  intro a b h
  have h2 : decodeDigits (itoa a).data = decodeDigits (itoa b).data := by rw [h]
  simpa [itoa, decodeDigits_digitsFrom] using h2

theorem fragmentId_injective (path : String) : Function.Injective (fragmentId path) := by
  intro i j h
  apply itoa_injective
  unfold fragmentId at h
  have h2 := congrArg String.data h
  simp only [String.data_append] at h2
  exact String.ext (List.append_cancel_left h2)

theorem buildIds_eq (path : String) : ∀ (chunks : List String) (i : Nat),
    buildIds path chunks i = (List.range' i chunks.length).map (fragmentId path) := by
  intro chunks
  induction chunks with
  | nil => intro i; rfl
  | cons c rest ih =>
    intro i
    simp [buildIds, ih (i + 1), List.range'_succ]

/-! ## The load command -/

theorem fragmentBatch_returns (path content : String) :
    ∃ chunks, chunkText content chunkSize chunkProd = some chunks ∧
      fragmentBatch path content = some (buildIds path chunks 0, chunks) := by
  obtain ⟨chunks, h⟩ := chunkText_returns content chunkSize chunkProd (by decide) (by decide)
  exact ⟨chunks, h, by simp [fragmentBatch, h]⟩

theorem okTotal_cons (c : AddCall) (new : List AddCall) :
    okTotal (c :: new) = okTotal [c] + okTotal new := by
  show okTotal ([c] ++ new) = okTotal [c] + okTotal new
  simp only [okTotal, List.filter_append, List.map_append, List.sum_append]

/-- The loop runs to its end, and its add calls follow the documents one by
one: call `i` carries the batch of document `i`, is made on the store left by
call `i - 1`, and is marked as succeeded exactly when `add` returned no error. -/
theorem loadLoop_trace {σ : Type} (add : σ → List String → List String → Option String × σ) :
    ∀ (docs : List (String × String)) (s : σ) (adds : List AddCall) (total : Nat),
      ∃ (run : LoadRun σ) (new : List AddCall) (stores : List σ),
        loadLoop add docs s adds total = some run ∧ run.adds = adds ++ new ∧
        run.totalFragments = total + okTotal new ∧
        new.length = docs.length ∧ stores.length = docs.length + 1 ∧
        stores.head? = some s ∧ stores.getLast? = some run.store ∧
        (∀ (i : Nat) (d : String × String) (c : AddCall) (st st1 : σ),
          docs[i]? = some d → new[i]? = some c → stores[i]? = some st →
          stores[i + 1]? = some st1 →
            c.path = d.1 ∧ chunkText d.2 chunkSize chunkProd = some c.docs ∧
            c.ids = buildIds d.1 c.docs 0 ∧
            (add st c.ids c.docs).2 = st1 ∧ (c.ok = true ↔ (add st c.ids c.docs).1 = none)) := by
  intro docs
  induction docs with
  | nil =>
    intro s adds total
    refine ⟨⟨s, adds, total⟩, [], [s], rfl, by simp, by simp [okTotal], rfl, rfl, rfl, rfl, ?_⟩
    intro i d c st st1 hd
    simp at hd
  | cons d rest ih =>
    intro s adds total
    obtain ⟨path, content⟩ := d
    obtain ⟨chunks, hchunks, hbatch⟩ := fragmentBatch_returns path content
    rcases hadd : add s (buildIds path chunks 0) chunks with ⟨err, s1⟩
    have step : ∀ (ok : Bool) (total1 : Nat),
        (ok = true ↔ err = none) →
        loadLoop add ((path, content) :: rest) s adds total
          = loadLoop add rest s1 (adds ++ [⟨path, buildIds path chunks 0, chunks, ok⟩]) total1 →
        total1 = total + okTotal [⟨path, buildIds path chunks 0, chunks, ok⟩] →
        ∃ (run : LoadRun σ) (new : List AddCall) (stores : List σ),
          loadLoop add ((path, content) :: rest) s adds total = some run ∧
          run.adds = adds ++ new ∧ run.totalFragments = total + okTotal new ∧
          new.length = ((path, content) :: rest).length ∧
          stores.length = ((path, content) :: rest).length + 1 ∧
          stores.head? = some s ∧ stores.getLast? = some run.store ∧
          (∀ (i : Nat) (d : String × String) (c : AddCall) (st st1 : σ),
            ((path, content) :: rest)[i]? = some d → new[i]? = some c → stores[i]? = some st →
            stores[i + 1]? = some st1 →
              c.path = d.1 ∧ chunkText d.2 chunkSize chunkProd = some c.docs ∧
              c.ids = buildIds d.1 c.docs 0 ∧
              (add st c.ids c.docs).2 = st1 ∧
              (c.ok = true ↔ (add st c.ids c.docs).1 = none)) := by
      intro ok total1 hok hloop htotal
      obtain ⟨run, new, stores, hrun, hadds, htot, hlen, hslen, hhead, hlast, hall⟩ :=
        ih s1 (adds ++ [⟨path, buildIds path chunks 0, chunks, ok⟩]) total1
      obtain ⟨st0, stores1, rfl⟩ : ∃ a t, stores = a :: t := by
        cases stores with
        | nil => simp at hslen
        | cons a t => exact ⟨a, t, rfl⟩
      have hst0 : st0 = s1 := by simpa using hhead
      subst hst0
      refine ⟨run, ⟨path, buildIds path chunks 0, chunks, ok⟩ :: new, s :: st0 :: stores1,
        hloop.trans hrun, by simpa using hadds, ?_, by simp [hlen], by simpa using hslen, rfl,
        by simpa using hlast, ?_⟩
      · have hcons := okTotal_cons ⟨path, buildIds path chunks 0, chunks, ok⟩ new
        omega
      · intro i d c st st1 hd hc hst hst1
        cases i with
        | zero =>
          simp only [List.getElem?_cons_zero, Option.some.injEq, Nat.zero_add,
            List.getElem?_cons_succ] at hd hc hst hst1
          subst hd hc hst hst1
          refine ⟨rfl, hchunks, rfl, ?_, ?_⟩
          · show (add s (buildIds path chunks 0) chunks).2 = st0
            rw [hadd]
          · show ok = true ↔ (add s (buildIds path chunks 0) chunks).1 = none
            rw [hadd]
            exact hok
        | succ j =>
          rw [List.getElem?_cons_succ] at hd hc hst hst1
          exact hall j d c st st1 hd hc hst hst1
    cases err with
    | some e =>
      exact step false total (by simp) (by simp only [loadLoop, hbatch, hadd]) (by simp [okTotal])
    | none =>
      exact step true (total + chunks.length) (by simp) (by simp only [loadLoop, hbatch, hadd])
        (by simp [okTotal])

/-! ## The keyed store -/

theorem KeyedStore.filter_put_eq (s : KeyedStore) (X t : String) :
    (KeyedStore.put s (X, t)).filter (fun g => g.1 = X) = [(X, t)] := by
  unfold KeyedStore.put
  rw [List.filter_append, List.filter_filter]
  have h1 : List.filter (fun g => decide (g.1 = X) && decide (g.1 ≠ (X, t).1)) s = [] := by
    rw [List.filter_eq_nil_iff]
    intro g _
    by_cases hg : g.1 = X <;> simp [hg]
  rw [h1]
  simp

theorem KeyedStore.mem_put_ne (s : KeyedStore) (f g : String × String) (h : g.1 ≠ f.1) :
    g ∈ KeyedStore.put s f ↔ g ∈ s := by
  unfold KeyedStore.put
  simp only [List.mem_append, List.mem_filter, List.mem_singleton]
  constructor
  · rintro (⟨hm, -⟩ | rfl)
    · exact hm
    · exact absurd rfl h
  · intro hm
    exact Or.inl ⟨hm, by simpa using h⟩

/-! ## Properties of `chunkText` -/

/-- C3 (as the code has it): for a window `0 < W ≤ 2^53` and a binary64 overlap
`f` in `[0,1)`, line 100 gives a product `prod` from 0 to `W`, and with the
stride `s = stepOf W prod` and `n` words `chunkText` returns the empty list
when `n = 0`, and otherwise exactly `m + 1` fragments, `m` the least `k` with
`k*s + W ≥ n`, fragment `k` being the words `[k*s, min(k*s + W, n))` joined by
single spaces. -/
theorem chunkText_fragments (T : String) (W : Int) (f : F64) (hW : 0 < W) (hW53 : W ≤ 2 ^ 53)
    (hf0 : 0 ≤ f.toRat) (hf1 : f.toRat < 1) :
    ∃ prod : Int, f64Prod W f = some prod ∧ 0 ≤ prod ∧ prod ≤ W ∧
      ((fields T).length = 0 → chunkTextOverlap T W f = some []) ∧
      (0 < (fields T).length → ∃ m : Nat,
        (fields T).length ≤ m * (stepOf W prod).toNat + W.toNat ∧
        (∀ k, k < m → k * (stepOf W prod).toNat + W.toNat < (fields T).length) ∧
        chunkTextOverlap T W f = some ((List.range (m + 1)).map (fun k =>
          join (slice (fields T) (k * (stepOf W prod).toNat)
            (min (k * (stepOf W prod).toNat + W.toNat) (fields T).length)) " "))) := by
  obtain ⟨prod, hprod, hnn, hle⟩ := f64Prod_bounds W f hW hW53 hf0 hf1
  have hrun : chunkTextOverlap T W f = chunkText T W prod := chunkTextOverlap_of_prod T W f prod hprod
  refine ⟨prod, hprod, hnn, hle, ?_, fun hn => ?_⟩
  · intro h0
    rw [hrun]
    exact chunkText_of_no_words T W prod h0
  · have hs : 0 < (stepOf W prod).toNat := by
      have := stepOf_pos W prod hW
      omega
    rw [hrun]
    exact ⟨lastWindow (fields T).length W.toNat (stepOf W prod).toNat,
      lastWindow_reaches _ _ _ hs, lastWindow_least _ _ _ hs, chunkText_windows T W prod hW hle hn⟩

/-- Witness of C3: "a b c d e f g h" with window 4 and overlap 0.25, which give
the product 3. -/
theorem chunkText_fragments_witness :
    (0 : Int) < 4 ∧ (4 : Int) ≤ 2 ^ 53 ∧
    0 ≤ F64.toRat ⟨1, -2⟩ ∧ F64.toRat ⟨1, -2⟩ < 1 ∧
    f64Prod 4 ⟨1, -2⟩ = some 3 ∧
    chunkTextOverlap "a b c d e f g h" 4 ⟨1, -2⟩ = some ["a b c d", "d e f g", "g h"] ∧
    (∃ prod : Int, f64Prod 4 ⟨1, -2⟩ = some prod ∧ 0 ≤ prod ∧ prod ≤ 4 ∧
      ((fields "a b c d e f g h").length = 0 →
        chunkTextOverlap "a b c d e f g h" 4 ⟨1, -2⟩ = some []) ∧
      (0 < (fields "a b c d e f g h").length → ∃ m : Nat,
        (fields "a b c d e f g h").length ≤ m * (stepOf 4 prod).toNat + (4 : Int).toNat ∧
        (∀ k, k < m →
          k * (stepOf 4 prod).toNat + (4 : Int).toNat < (fields "a b c d e f g h").length) ∧
        chunkTextOverlap "a b c d e f g h" 4 ⟨1, -2⟩ = some ((List.range (m + 1)).map (fun k =>
          join (slice (fields "a b c d e f g h") (k * (stepOf 4 prod).toNat)
            (min (k * (stepOf 4 prod).toNat + (4 : Int).toNat)
              (fields "a b c d e f g h").length)) " ")))) :=
  ⟨by decide, by decide, by norm_num [F64.toRat], by norm_num [F64.toRat], by decide, by decide,
    chunkText_fragments "a b c d e f g h" 4 ⟨1, -2⟩ (by decide) (by decide)
      (by norm_num [F64.toRat]) (by norm_num [F64.toRat])⟩

/-- C3 as stated fails: for the window 3 and the overlap `2^-60` the formula
`floor(W * (1 - f))` gives the stride 2 and, on "a b c d e f g", the fragments
"a b c", "c d e", "e f g"; in binary64 the difference `1 - 2^-60` is 1, the
product is 3, and the code returns "a b c", "d e f", "g". -/
theorem chunkText_stride_not_floor :
    claimedStride 3 (F64.toRat ⟨1, -60⟩) = 2 ∧
    claimedChunks "a b c d e f g" 3 (F64.toRat ⟨1, -60⟩) = ["a b c", "c d e", "e f g"] ∧
    f64Prod 3 ⟨1, -60⟩ = some 3 ∧
    chunkTextOverlap "a b c d e f g" 3 ⟨1, -60⟩ = some ["a b c", "d e f", "g"] ∧
    chunkTextOverlap "a b c d e f g" 3 ⟨1, -60⟩
      ≠ some (claimedChunks "a b c d e f g" 3 (F64.toRat ⟨1, -60⟩)) := by
  have hs : claimedStride 3 (F64.toRat ⟨1, -60⟩) = 2 := by
    have hfl : ⌊((3 : Int) : ℚ) * (1 - F64.toRat ⟨1, -60⟩)⌋ = 2 := by
      rw [Int.floor_eq_iff]
      constructor <;> norm_num [F64.toRat]
    unfold claimedStride
    rw [hfl]
    decide
  have hc : claimedChunks "a b c d e f g" 3 (F64.toRat ⟨1, -60⟩)
      = ["a b c", "c d e", "e f g"] := by
    unfold claimedChunks
    rw [hs]
    decide
  have hcode : chunkTextOverlap "a b c d e f g" 3 ⟨1, -60⟩ = some ["a b c", "d e f", "g"] := by
    decide
  refine ⟨hs, hc, by decide, hcode, ?_⟩
  rw [hcode, hc]
  decide

/-- C2: for a window `W > 0` and a truncated product `prod ≤ W` (an overlap in
`[0,1)`), `chunkText` returns a list whose fragments all have at most `W`
words, and when the list is non-empty its last fragment is a word range
`[i, n)` that ends at the word count `n` of the text, so that its last word is
the last word of the text. -/
theorem chunkText_word_bound (T : String) (W prod : Int) (hW : 0 < W) (hprod : prod ≤ W) :
    ∃ chunks, chunkText T W prod = some chunks ∧
      (∀ c ∈ chunks, ((fields c).length : Int) ≤ W) ∧
      (chunks ≠ [] → ∃ i last, i < (fields T).length ∧ chunks.getLast? = some last ∧
        last = join (slice (fields T) i (fields T).length) " " ∧
        fields last = slice (fields T) i (fields T).length ∧
        (fields last).getLast? = (fields T).getLast?) := by
  have hs : 0 < (stepOf W prod).toNat := by
    have := stepOf_pos W prod hW
    omega
  have hsw : (stepOf W prod).toNat ≤ W.toNat := by
    have h1 := stepOf_le hprod
    have h2 := stepOf_pos W prod hW
    omega
  rcases Nat.eq_zero_or_pos (fields T).length with h0 | hn
  · exact ⟨[], chunkText_of_no_words T W prod h0, by simp, by simp⟩
  · refine ⟨_, chunkText_windows T W prod hW hprod hn, ?_, ?_⟩
    · intro c hc
      rw [List.mem_map] at hc
      obtain ⟨k, -, rfl⟩ := hc
      unfold frag
      rw [fields_join_slice, slice_length _ _ _ (Nat.min_le_right _ _)]
      have : min (k * (stepOf W prod).toNat + W.toNat) (fields T).length
          - k * (stepOf W prod).toNat ≤ W.toNat := by
        have := Nat.min_le_left (k * (stepOf W prod).toNat + W.toNat) (fields T).length
        omega
      omega
    · intro _
      have hlast := window_start_lt (fields T).length W.toNat (stepOf W prod).toNat
        (lastWindow (fields T).length W.toNat (stepOf W prod).toNat) hsw hn
        (lastWindow_least _ _ _ hs)
      have hreach := lastWindow_reaches (fields T).length W.toNat (stepOf W prod).toNat hs
      refine ⟨lastWindow (fields T).length W.toNat (stepOf W prod).toNat * (stepOf W prod).toNat,
        _, hlast, ?_, rfl, fields_join_slice T _ _, ?_⟩
      · rw [List.getLast?_map, List.getLast?_range]
        simp only [Nat.add_one_ne_zero, if_false, Nat.add_sub_cancel, Option.map_some', frag]
        rw [Nat.min_eq_right hreach]
      · rw [fields_join_slice, slice_to_end, List.getLast?_drop]
        simp only [Nat.not_le.mpr hlast, if_false]

/-- Witness of C2: "a b c d e f g h" with window 4 and overlap 0.25 (product 3). -/
theorem chunkText_word_bound_witness :
    (0 : Int) < 4 ∧ (3 : Int) ≤ 4 ∧
    ∃ chunks, chunkText "a b c d e f g h" 4 3 = some chunks ∧
      (∀ c ∈ chunks, ((fields c).length : Int) ≤ 4) ∧
      (chunks ≠ [] → ∃ i last, i < (fields "a b c d e f g h").length ∧
        chunks.getLast? = some last ∧
        last = join (slice (fields "a b c d e f g h") i (fields "a b c d e f g h").length) " " ∧
        fields last = slice (fields "a b c d e f g h") i (fields "a b c d e f g h").length ∧
        (fields last).getLast? = (fields "a b c d e f g h").getLast?) :=
  ⟨by decide, by decide, chunkText_word_bound "a b c d e f g h" 4 3 (by decide) (by decide)⟩

/-- C10: for a window `W > 0` and a truncated product `prod ≤ W` (an overlap in
`[0,1)`), `chunkText` loses no word: the returned fragments are the word ranges
`[k*s, min(k*s + W, n))` for `k = 0 .. m`, every word position `j < n` lies in
one of them, and each range starts at or before the end of the one before. -/
theorem chunkText_covers (T : String) (W prod : Int) (hW : 0 < W) (hprod : prod ≤ W) :
    ((fields T).length = 0 → chunkText T W prod = some []) ∧
    (0 < (fields T).length → ∃ m : Nat,
      chunkText T W prod
        = some ((List.range (m + 1)).map (frag (fields T) W.toNat (stepOf W prod).toNat)) ∧
      (∀ j, j < (fields T).length → ∃ k, k ≤ m ∧ k * (stepOf W prod).toNat ≤ j ∧
        j < min (k * (stepOf W prod).toNat + W.toNat) (fields T).length) ∧
      (∀ k, k < m → (k + 1) * (stepOf W prod).toNat
        ≤ min (k * (stepOf W prod).toNat + W.toNat) (fields T).length)) := by
  have hs : 0 < (stepOf W prod).toNat := by
    have := stepOf_pos W prod hW
    omega
  have hsw : (stepOf W prod).toNat ≤ W.toNat := by
    have h1 := stepOf_le hprod
    have h2 := stepOf_pos W prod hW
    omega
  refine ⟨chunkText_of_no_words T W prod, fun hn => ?_⟩
  refine ⟨lastWindow (fields T).length W.toNat (stepOf W prod).toNat,
    chunkText_windows T W prod hW hprod hn, ?_, ?_⟩
  · intro j hj
    exact window_covers _ _ _ _ j hs hsw (lastWindow_reaches _ _ _ hs) hj
  · intro k hk
    exact window_no_gap _ _ _ k hsw (lastWindow_least _ _ _ hs k hk)

/-- Witness of C10: "a b c d e f g h" with window 4 and overlap 0.25 (product 3). -/
theorem chunkText_covers_witness :
    (0 : Int) < 4 ∧ (3 : Int) ≤ 4 ∧
    (0 < (fields "a b c d e f g h").length → ∃ m : Nat,
      chunkText "a b c d e f g h" 4 3
        = some ((List.range (m + 1)).map (frag (fields "a b c d e f g h") (4 : Int).toNat
            (stepOf 4 3).toNat)) ∧
      (∀ j, j < (fields "a b c d e f g h").length → ∃ k, k ≤ m ∧ k * (stepOf 4 3).toNat ≤ j ∧
        j < min (k * (stepOf 4 3).toNat + (4 : Int).toNat) (fields "a b c d e f g h").length) ∧
      (∀ k, k < m → (k + 1) * (stepOf 4 3).toNat
        ≤ min (k * (stepOf 4 3).toNat + (4 : Int).toNat) (fields "a b c d e f g h").length)) :=
  ⟨by decide, by decide, (chunkText_covers "a b c d e f g h" 4 3 (by decide) (by decide)).2⟩

/-! ## Context assembly -/

/-- C4: the assembled context is the newline-join of the longest prefix of the
ranked fragments whose summed lengths do not exceed the budget: the prefix of
`k` fragments fits, no longer prefix does, and the context is empty when the
first fragment alone is longer than the budget. -/
theorem assemble_longest_fitting (res : List String) (B : Nat) :
    (∃ k, k ≤ res.length ∧ assemble res B = join (res.take k) "\n" ∧
      sumLen (res.take k) ≤ B ∧
      (∀ j, k < j → j ≤ res.length → B < sumLen (res.take j))) ∧
    (∀ doc rest, res = doc :: rest → B < len doc → assemble res B = "") := by
  constructor
  · obtain ⟨k, hk, heq, hfit, hmax⟩ := assembleLoop_spec B res [] 0
    refine ⟨k, hk, ?_, by simpa using hfit (Nat.zero_le _), ?_⟩
    · unfold assemble
      rw [heq]
      simp
    · intro j h1 h2
      simpa using hmax j h1 h2
  · rintro doc rest rfl h
    have hgt : 0 + len doc > B := by omega
    simp only [assemble, assembleLoop, hgt, if_true, join]

/-- Witness of C4: budget 10 and the fragments "hello", "worldwide". -/
theorem assemble_longest_fitting_witness :
    assemble ["hello", "worldwide"] 10 = "hello" ∧
    (∃ k, k ≤ ["hello", "worldwide"].length ∧
      assemble ["hello", "worldwide"] 10 = join (["hello", "worldwide"].take k) "\n" ∧
      sumLen (["hello", "worldwide"].take k) ≤ 10 ∧
      (∀ j, k < j → j ≤ ["hello", "worldwide"].length →
        10 < sumLen (["hello", "worldwide"].take j))) :=
  ⟨by decide, (assemble_longest_fitting ["hello", "worldwide"] 10).1⟩

/-- C1 (fails on the code): the loop counts the lengths of the accepted
fragments and not the newlines that join them.  With the budget 10 the
fragments "hello" and "world" are both accepted and the context has 11 bytes;
with the program's budget `maxChars` two fragments of 2000 bytes are both
accepted and the context has 4001 bytes. -/
theorem assemble_exceeds_budget :
    (assemble ["hello", "world"] 10 = "hello\nworld" ∧
      len (assemble ["hello", "world"] 10) = 11 ∧
      ¬ len (assemble ["hello", "world"] 10) ≤ 10) ∧
    (len (assemble [String.mk (List.replicate 2000 'a'), String.mk (List.replicate 2000 'b')]
        maxChars) = 4001 ∧
      ¬ len (assemble [String.mk (List.replicate 2000 'a'), String.mk (List.replicate 2000 'b')]
        maxChars) ≤ maxChars) := by
  refine ⟨by decide, ?_⟩
  have ha := len_replicate 2000 'a' (by decide)
  have hb := len_replicate 2000 'b' (by decide)
  have h := len_assemble_pair (String.mk (List.replicate 2000 'a'))
    (String.mk (List.replicate 2000 'b')) maxChars (by rw [ha, hb]; decide)
  rw [ha, hb] at h
  rw [h]
  exact ⟨rfl, by decide⟩

/-! ## The query command -/

/-- C5 (as the code has it): on a collection of count zero the query command
calls neither the similarity query nor the generation service, whatever the
line entered, and for a line that is not blank after trimming it ends with the
empty-collection message. -/
theorem queryCmd_empty_collection (query : String → Nat → Except String (List String))
    (generate : String → Except String String) (line : String) :
    (∀ c ∈ (queryCmd 0 query generate line).calls, c = Call.count) ∧
    (trimSpace line ≠ "" →
      (queryCmd 0 query generate line).outcome = QueryOutcome.emptyCollection) := by
  by_cases h : trimSpace line = ""
  · rw [queryCmd_of_blank 0 query generate line h]
    exact ⟨by simp, fun hne => absurd h hne⟩
  · rw [queryCmd_of_empty query generate line h]
    exact ⟨by simp, fun _ => rfl⟩

/-- Witness of C5 as amended: the question "hi" on an empty collection. -/
theorem queryCmd_empty_collection_witness :
    trimSpace "hi\n" ≠ "" ∧
    (queryCmd 0 (fun _ _ => Except.ok ["a"]) (fun _ => Except.ok "x") "hi\n").outcome
      = QueryOutcome.emptyCollection :=
  ⟨by decide,
    (queryCmd_empty_collection (fun _ _ => Except.ok ["a"]) (fun _ => Except.ok "x") "hi\n").2
      (by decide)⟩

/-- C5 as stated fails: a blank line at the question prompt on an empty
collection ends the command at line 181, before the count is read, and the
empty-collection message is not shown. -/
theorem queryCmd_blank_on_empty_collection :
    queryCmd 0 (fun _ _ => Except.ok []) (fun _ => Except.ok "") "\n"
      = ⟨[], QueryOutcome.blank⟩ ∧
    (queryCmd 0 (fun _ _ => Except.ok []) (fun _ => Except.ok "") "\n").outcome
      ≠ QueryOutcome.emptyCollection := by
  decide

/-- C6: every similarity query the query command issues asks for
`n = min(10, count)` results, with `1 ≤ n ≤ count`; and the query is issued
whenever the question is not blank and the collection is not empty. -/
theorem queryCmd_topK_clamped (count : Nat) (query : String → Nat → Except String (List String))
    (generate : String → Except String String) (line : String) :
    (∀ q n, Call.storeQuery q n ∈ (queryCmd count query generate line).calls →
      n = min 10 count ∧ 1 ≤ n ∧ n ≤ count) ∧
    (trimSpace line ≠ "" → 0 < count →
      Call.storeQuery (trimSpace line) (min 10 count)
        ∈ (queryCmd count query generate line).calls) := by
  by_cases hq : trimSpace line = ""
  · rw [queryCmd_of_blank count query generate line hq]
    exact ⟨by simp, fun hne => absurd hq hne⟩
  · rcases Nat.eq_zero_or_pos count with h0 | hc
    · subst h0
      rw [queryCmd_of_empty query generate line hq]
      exact ⟨by simp, fun _ h => absurd h (by decide)⟩
    · obtain ⟨rest, hcalls, hrest⟩ := queryCmd_calls count query generate line hq hc
      rw [hcalls]
      refine ⟨?_, fun _ _ => by simp⟩
      intro q n hmem
      simp only [List.mem_cons] at hmem
      rcases hmem with h | h | h
      · cases h
      · cases h
        refine ⟨rfl, ?_, Nat.min_le_right _ _⟩
        rw [Nat.le_min]
        omega
      · obtain ⟨p, hp⟩ := hrest _ h
        cases hp

/-- Witness of C6: a collection of three fragments is asked for three results. -/
theorem queryCmd_topK_clamped_witness :
    trimSpace "hi\n" ≠ "" ∧ 0 < 3 ∧
    Call.storeQuery "hi" 3
      ∈ (queryCmd 3 (fun _ _ => Except.ok ["a"]) (fun _ => Except.ok "x") "hi\n").calls ∧
    (3 = min 10 3 ∧ 1 ≤ 3 ∧ 3 ≤ 3) :=
  ⟨by decide, by decide, by decide,
    (queryCmd_topK_clamped 3 (fun _ _ => Except.ok ["a"]) (fun _ => Except.ok "x") "hi\n").1
      "hi" 3 (by decide)⟩

/-! ## The load command -/

/-- C7: a load pass issues one add per document, in order, with the batch
`chunkText(content, 400, 0.25)` of that document, each on the store the add
before it left, whether or not earlier adds failed; an add counts as succeeded
exactly when the store returned no error, and the reported total is the sum of
the batch sizes over exactly the adds that succeeded. -/
theorem loadCmd_total {σ : Type} (add : σ → List String → List String → Option String × σ)
    (s : σ) (docs : List (String × String)) :
    ∃ (run : LoadRun σ) (stores : List σ), loadCmd add s docs = some run ∧
      run.adds.length = docs.length ∧ stores.length = docs.length + 1 ∧
      stores.head? = some s ∧ stores.getLast? = some run.store ∧
      (∀ (i : Nat) (d : String × String) (c : AddCall) (st st1 : σ),
        docs[i]? = some d → run.adds[i]? = some c → stores[i]? = some st →
        stores[i + 1]? = some st1 →
          c.path = d.1 ∧ chunkText d.2 400 300 = some c.docs ∧
          c.ids = buildIds d.1 c.docs 0 ∧
          (add st c.ids c.docs).2 = st1 ∧ (c.ok = true ↔ (add st c.ids c.docs).1 = none)) ∧
      run.totalFragments
        = ((run.adds.filter (fun c => c.ok)).map (fun c => c.docs.length)).sum := by
  obtain ⟨run, new, stores, hrun, hadds, htot, hlen, hslen, hhead, hlast, hall⟩ :=
    loadLoop_trace add docs s [] 0
  rw [List.nil_append] at hadds
  refine ⟨run, stores, hrun, by rw [hadds, hlen], hslen, hhead, hlast, ?_, ?_⟩
  · rw [hadds]
    exact hall
  · rw [htot, hadds, Nat.zero_add]
    rfl

/-- Witness of C7: a pass over three documents with a store that refuses the
batch of the second: the three adds are issued, the second is marked as
failed, and the total counts the first and the third. -/
theorem loadCmd_total_witness :
    (loadCmd (fun (_ : Unit) ids _ => (if ids = ["b_0"] then some "store error" else none, ()))
        () [("a", "x y"), ("b", "z"), ("c", "u v w")]).map
      (fun run => (run.adds, run.totalFragments))
      = some ([⟨"a", ["a_0"], ["x y"], true⟩, ⟨"b", ["b_0"], ["z"], false⟩,
          ⟨"c", ["c_0"], ["u v w"], true⟩], 2) ∧
    (∃ (run : LoadRun Unit) (stores : List Unit),
      loadCmd (fun (_ : Unit) ids _ => (if ids = ["b_0"] then some "store error" else none, ()))
        () [("a", "x y"), ("b", "z"), ("c", "u v w")] = some run ∧
      run.adds.length = [("a", "x y"), ("b", "z"), ("c", "u v w")].length ∧
      stores.length = [("a", "x y"), ("b", "z"), ("c", "u v w")].length + 1 ∧
      stores.head? = some () ∧ stores.getLast? = some run.store ∧
      (∀ (i : Nat) (d : String × String) (c : AddCall) (st st1 : Unit),
        [("a", "x y"), ("b", "z"), ("c", "u v w")][i]? = some d → run.adds[i]? = some c →
        stores[i]? = some st → stores[i + 1]? = some st1 →
          c.path = d.1 ∧ chunkText d.2 400 300 = some c.docs ∧
          c.ids = buildIds d.1 c.docs 0 ∧
          ((fun (_ : Unit) (ids _ : List String) =>
            (if ids = ["b_0"] then some "store error" else none, ())) st c.ids c.docs).2 = st1 ∧
          (c.ok = true ↔ ((fun (_ : Unit) (ids _ : List String) =>
            (if ids = ["b_0"] then some "store error" else none, ())) st c.ids c.docs).1 = none)) ∧
      run.totalFragments
        = ((run.adds.filter (fun c => c.ok)).map (fun c => c.docs.length)).sum) :=
  ⟨by decide,
    loadCmd_total (fun (_ : Unit) ids _ => (if ids = ["b_0"] then some "store error" else none, ()))
      () [("a", "x y"), ("b", "z"), ("c", "u v w")]⟩

/-! ## Fragment ids -/

/-- C9: the ids of a document's fragments are the path, "_" and the decimal
index; they are pairwise distinct, the id list depends only on the path and the
number of fragments, and the batch of a document is a function of its path and
content alone. -/
theorem fragment_ids_distinct (path : String) :
    (∀ i j, fragmentId path i = fragmentId path j → i = j) ∧
    (∀ chunks : List String,
      buildIds path chunks 0 = (List.range chunks.length).map (fragmentId path) ∧
      (buildIds path chunks 0).Nodup) ∧
    (∀ chunks chunks2 : List String, chunks.length = chunks2.length →
      buildIds path chunks 0 = buildIds path chunks2 0) ∧
    (∀ content, ∃ chunks, chunkText content chunkSize chunkProd = some chunks ∧
      fragmentBatch path content
        = some ((List.range chunks.length).map (fragmentId path), chunks)) := by
  have hids : ∀ chunks : List String,
      buildIds path chunks 0 = (List.range chunks.length).map (fragmentId path) := by
    intro chunks
    rw [buildIds_eq, List.range_eq_range']
  refine ⟨fun i j h => fragmentId_injective path h, fun chunks => ⟨hids chunks, ?_⟩, ?_, ?_⟩
  · rw [hids]
    exact (List.nodup_range _).map (fragmentId_injective path)
  · intro chunks chunks2 h
    rw [hids, hids, h]
  · intro content
    obtain ⟨chunks, h1, h2⟩ := fragmentBatch_returns path content
    exact ⟨chunks, h1, by rw [h2, hids]⟩

/-- Witness of C9: the ids of three fragments of "files/a.txt". -/
theorem fragment_ids_distinct_witness :
    buildIds "files/a.txt" ["x", "y", "z"] 0
      = ["files/a.txt_0", "files/a.txt_1", "files/a.txt_2"] ∧
    (buildIds "files/a.txt" ["x", "y", "z"] 0).Nodup :=
  ⟨by decide, ((fragment_ids_distinct "files/a.txt").2.1 ["x", "y", "z"]).2⟩

/-! ## The update command -/

/-- C8: on the store keyed by id, an update of an id `X` (held by the store or
not) ends as updated and leaves exactly one fragment with id `X`, whose content
is the new text; no fragment with id `X` and another content remains, and the
fragments of the other ids are as before. -/
theorem updateCmd_replaces (s : KeyedStore) (idLine txtLine : String) :
    (updateCmd KeyedStore.delete KeyedStore.add s idLine txtLine).1 = UpdateOutcome.updated ∧
    (updateCmd KeyedStore.delete KeyedStore.add s idLine txtLine).2.filter
        (fun f => f.1 = trimSpace idLine) = [(trimSpace idLine, trimSpace txtLine)] ∧
    (∀ old, old ≠ trimSpace txtLine →
      (trimSpace idLine, old) ∉ (updateCmd KeyedStore.delete KeyedStore.add s idLine txtLine).2) ∧
    (∀ f : String × String, f.1 ≠ trimSpace idLine →
      (f ∈ (updateCmd KeyedStore.delete KeyedStore.add s idLine txtLine).2 ↔ f ∈ s)) := by
  have hrun : updateCmd KeyedStore.delete KeyedStore.add s idLine txtLine
      = (UpdateOutcome.updated, KeyedStore.put (s.filter (fun f => f.1 ≠ trimSpace idLine))
          (trimSpace idLine, trimSpace txtLine)) := by
    simp [updateCmd, KeyedStore.delete, KeyedStore.add]
  have hfil := KeyedStore.filter_put_eq (s.filter (fun f => f.1 ≠ trimSpace idLine))
    (trimSpace idLine) (trimSpace txtLine)
  rw [hrun]
  refine ⟨rfl, hfil, ?_, ?_⟩
  · intro old hold hmem
    have : (trimSpace idLine, old) ∈ List.filter (fun g => decide (g.1 = trimSpace idLine))
        (KeyedStore.put (s.filter (fun f => f.1 ≠ trimSpace idLine))
          (trimSpace idLine, trimSpace txtLine)) := by
      rw [List.mem_filter]
      exact ⟨hmem, by simp⟩
    rw [hfil] at this
    simp only [List.mem_singleton, Prod.mk.injEq, true_and] at this
    exact hold this
  · intro f hf
    rw [KeyedStore.mem_put_ne _ _ _ hf, List.mem_filter]
    simp [hf]

/-- Witness of C8: `update("doc_0", "new text")` on a store that holds "doc_0". -/
theorem updateCmd_replaces_witness :
    (∃ old, (trimSpace "doc_0\n", old) ∈ ([("doc_0", "old text"), ("doc_1", "other")] : KeyedStore)) ∧
    updateCmd KeyedStore.delete KeyedStore.add [("doc_0", "old text"), ("doc_1", "other")]
      "doc_0\n" "new text\n"
      = (UpdateOutcome.updated, [("doc_1", "other"), ("doc_0", "new text")]) ∧
    (updateCmd KeyedStore.delete KeyedStore.add [("doc_0", "old text"), ("doc_1", "other")]
      "doc_0\n" "new text\n").2.filter (fun f => f.1 = trimSpace "doc_0\n")
      = [(trimSpace "doc_0\n", trimSpace "new text\n")] :=
  ⟨⟨"old text", by decide⟩, by decide,
    (updateCmd_replaces [("doc_0", "old text"), ("doc_1", "other")] "doc_0\n" "new text\n").2.1⟩

end RagGo
